import Mathlib

/-!
# Verification of the JPT (Joint Probability Tree) core
A shallow embedding of `src/jpt/learning/trees.py`: the node/leaf data
model, the impurity/gain computation, best-split selection, the c4.5
routing step, and the inference procedures (`infer`, `apply`, `reverse`,
`learn` input validation).  Machine floats are idealised as rationals;
Python exceptions are modelled with `Except`.
-/

/-- Variable kind: symbolic (categorical) or numeric, as in `jpt.variables`. -/
inductive VKind where
  | symbolic
  | numeric
deriving DecidableEq, Repr

/-- A variable descriptor.  Modelled from the spec: the `jpt.variables`
module is not under `src/`; per spec §3 a variable is an immutable
descriptor with a kind, a finite ordered label domain for symbolic
variables (represented here by its size, labels being their indices),
and an optional per-variable minimum-improvement threshold (spec §4.1).
Variables are compared by identity, modelled by the `id` field. -/
structure Var where
  id : ℕ
  kind : VKind
  nValues : ℕ
  minImpurityImprovement : ℚ
deriving DecidableEq, Repr

/-- Predicate `var.symbolic` of the source. -/
def Var.symbolic (v : Var) : Bool := v.kind = VKind.symbolic

/-- Predicate `var.numeric` of the source. -/
def Var.numeric (v : Var) : Bool := v.kind = VKind.numeric

/-- A continuous interval with optionally infinite, optionally closed
endpoints.  Modelled from the spec: the external `intervals.ContinuousSet`
library is consumed, not reimplemented, by the repository (spec §1, §6);
`none` bounds stand for `-∞` / `+∞`, the Booleans record inclusivity. -/
structure Ival where
  lo : Option ℚ
  loInc : Bool
  hi : Option ℚ
  hiInc : Bool
deriving DecidableEq, Repr

/-- Greater lower bound of two interval lower bounds (`none` = `-∞`). -/
def maxLo : Option ℚ × Bool → Option ℚ × Bool → Option ℚ × Bool
  | (none, _), b => b
  | a, (none, _) => a
  | (some l, li), (some m, mi) =>
    if l < m then (some m, mi)
    else if m < l then (some l, li)
    else (some l, li && mi)

/-- Smaller upper bound of two interval upper bounds (`none` = `+∞`). -/
def minHi : Option ℚ × Bool → Option ℚ × Bool → Option ℚ × Bool
  | (none, _), b => b
  | a, (none, _) => a
  | (some l, li), (some m, mi) =>
    if l < m then (some l, li)
    else if m < l then (some m, mi)
    else (some l, li && mi)

/-- Interval intersection, as `ContinuousSet.intersection`. -/
def Ival.inter (a b : Ival) : Ival :=
  let lo := maxLo (a.lo, a.loInc) (b.lo, b.loInc)
  let hi := minHi (a.hi, a.hiInc) (b.hi, b.hiInc)
  ⟨lo.1, lo.2, hi.1, hi.2⟩

/-- Emptiness of an interval. -/
def Ival.isEmpty (a : Ival) : Bool :=
  match a.lo, a.hi with
  | some l, some h => h < l ∨ (l = h ∧ ¬(a.loInc ∧ a.hiInc))
  | _, _ => false

/-- Overlap test, as `ContinuousSet.intersects`. -/
def Ival.intersects (a b : Ival) : Bool := !(a.inter b).isEmpty

/-- The full real line, `ContinuousSet(-inf, inf)`. -/
def Ival.univ : Ival := ⟨none, false, none, false⟩

/-- An internal query/evidence value handed to the inference procedures:
a single symbolic label index, a set of label indices (used by `reverse`),
or a numeric interval. -/
inductive QVal where
  | sym (n : ℕ)
  | symSet (ns : List ℕ)
  | num (i : Ival)
deriving DecidableEq, Repr

/-- A per-variable constraint on a node path: a label-index set for
symbolic variables, an interval for numeric ones (spec §3 `Node.path`). -/
inductive PathC where
  | syms (ns : List ℕ)
  | num (i : Ival)
deriving DecidableEq, Repr

/-- A fitted per-variable distribution.  Modelled from the spec: the
`Distribution` objects are external collaborators (spec §2, §6), specified
only by their `probability(region) -> float` operation, embedded as an
abstract rational-valued function of the region. -/
structure PDist where
  p : QVal → ℚ

/-- A leaf node: its tree-unique id, its sample count, its (already
intersected, spec §4.3) path constraint map, and one distribution per
variable. -/
structure Leaf where
  idx : ℕ
  samples : ℚ
  path : List (Var × PathC)
  dist : Var → PDist

/-- Embedding of `Leaf.applies`: the leaf is consistent with `query` iff
for every query variable constrained on the leaf path, a symbolic query
value is a member of the path label set, and a numeric path interval
intersects the query interval. -/
def Leaf.applies (l : Leaf) (query : List (Var × QVal)) : Bool :=
  query.all fun p =>
    match l.path.lookup p.1 with
    | none => true
    | some c =>
      if p.1.symbolic then
        match p.2, c with
        | QVal.sym n, PathC.syms ns => ns.contains n
        | _, _ => false
      else
        match c, p.2 with
        | PathC.num pi, QVal.num qi => pi.intersects qi
        | _, _ => false

/-- Python exceptions raised by the inference/learning code. -/
inductive PyErr where
  | typeError (offending : List Var)
  | zeroDivisionError
deriving DecidableEq

/-- The `Result` object of the source: resolved query/evidence, scalar
result, contributing leaf ids and their un-normalised weights. -/
structure Result where
  query : List (Var × QVal)
  evidence : List (Var × QVal)
  result : ℚ
  candidates : List ℕ
  weights : List ℚ

/-- The JPT model.  `variables` is the fixed variable ordering,
`leaves` the leaf map in insertion order, `rootSamples` the sample count
of the root node, `parent` the parent-id relation of the node table,
`data` the column-typed training matrix (row, column) ↦ value, and
`relEntropy` the external `jpt.utils.rel_entropy` functional (modelled
from the spec: `rel_entropy` is not under `src/`; spec §4.1 specifies the
symbolic impurity as the relative entropy of the empirical label
distribution, kept abstract here as a function of that distribution). -/
structure JPT where
  _variables : List Var
  min_samples_leaf : ℕ
  leaves : List Leaf
  rootSamples : ℚ
  parent : ℕ → Option ℕ
  data : ℕ → ℕ → ℚ
  relEntropy : List ℚ → ℚ

/-- The `variables` property of the source, reading the `_variables`
field. -/
def JPT.variables (t : JPT) : List Var := t._variables

/-- Embedding of `JPT.apply`: validate that every query variable is a
model variable (else a `TypeError` naming the offending variables), then
yield exactly the leaves consistent with the query. -/
def JPT.apply (t : JPT) (query : List (Var × QVal)) : Except PyErr (List Leaf) :=
  if query.all fun p => t.variables.contains p.1 then
    Except.ok (t.leaves.filter fun l => l.applies query)
  else
    Except.error (PyErr.typeError ((query.map Prod.fst).filter fun v => !t.variables.contains v))

/-- The clipping of a query value against the leaf path used in the two
`if var.numeric and var in leaf.path` branches of `JPT.infer`. -/
def evAdjust (l : Leaf) (v : Var) (qv : QVal) : QVal :=
  if v.numeric ∧ (l.path.lookup v).isSome then
    match qv, l.path.lookup v with
    | QVal.num i, some (PathC.num j) => QVal.num (i.inter j)
    | _, _ => qv
  else qv

/-- The product of marginal probabilities accumulated by `JPT.infer` for
the variables of `m` absent from the leaf path (with the clipping
branch). -/
def pFactor (l : Leaf) (m : List (Var × QVal)) : ℚ :=
  ((m.filter fun p => !(l.path.lookup p.1).isSome).map
    fun p => (l.dist p.1).p (evAdjust l p.1 p.2)).prod

/-- Same as `pFactor` with the two dead clipping branches removed. -/
def pFactorPlain (l : Leaf) (m : List (Var × QVal)) : ℚ :=
  ((m.filter fun p => !(l.path.lookup p.1).isSome).map
    fun p => (l.dist p.1).p p.2).prod

/-- One leaf's contribution to the total matched evidence weight `p_e`:
its evidence factor times `leaf.samples / root.samples`. -/
def JPT.leafW (t : JPT) (evidence : List (Var × QVal)) (l : Leaf) : ℚ :=
  pFactor l evidence * (l.samples / t.rootSamples)

/-- The total matched evidence weight `p_e` accumulated by `JPT.infer`
over the leaves `ls` consistent with the evidence. -/
def JPT.evidenceMass (t : JPT) (evidence : List (Var × QVal)) (ls : List Leaf) : ℚ :=
  (ls.map (t.leafW evidence)).sum

/-- Embedding of `JPT.infer`: accumulate `p_e` over the leaves consistent
with the evidence and `p_q` over those also consistent with the query, and
return `p_q / p_e`.  Python float division by zero raises
`ZeroDivisionError`: both the per-leaf `leaf.samples / root.samples` with a
zero root count and the final `p_q / p_e` with `p_e = 0` are failures, not
numeric results. -/
def JPT.infer (t : JPT) (query evidence : List (Var × QVal)) : Except PyErr Result :=
  match t.apply evidence with
  | Except.error e => Except.error e
  | Except.ok ls =>
    if t.rootSamples = 0 ∧ ls.isEmpty = false then Except.error PyErr.zeroDivisionError
    else
      let pe := t.evidenceMass evidence ls
      let cands := ls.filter fun l => l.applies query
      let weights := cands.map fun l => t.leafW evidence l * pFactor l query
      if pe = 0 then Except.error PyErr.zeroDivisionError
      else Except.ok ⟨query, evidence, weights.sum / pe, cands.map Leaf.idx, weights⟩

/-- The variant of `JPT.infer` with the two interval-clipping branches
removed (claim C9's comparison point). -/
def JPT.inferPlain (t : JPT) (query evidence : List (Var × QVal)) : Except PyErr Result :=
  match t.apply evidence with
  | Except.error e => Except.error e
  | Except.ok ls =>
    if t.rootSamples = 0 ∧ ls.isEmpty = false then Except.error PyErr.zeroDivisionError
    else
      let pe := (ls.map fun l => pFactorPlain l evidence * (l.samples / t.rootSamples)).sum
      let cands := ls.filter fun l => l.applies query
      let weights := cands.map fun l =>
        (pFactorPlain l evidence * (l.samples / t.rootSamples)) * pFactorPlain l query
      if pe = 0 then Except.error PyErr.zeroDivisionError
      else Except.ok ⟨query, evidence, weights.sum / pe, cands.map Leaf.idx, weights⟩

theorem pFactor_eq_plain (l : Leaf) (m : List (Var × QVal)) :
    pFactor l m = pFactorPlain l m := by
  unfold pFactor pFactorPlain
  congr 1
  apply List.map_congr_left
  intro p hp
  rw [List.mem_filter] at hp
  have hlp : (l.path.lookup p.1).isSome = false := by
    simpa using hp.2
  unfold evAdjust
  rw [if_neg]
  intro hco
  rw [hlp] at hco
  exact Bool.false_ne_true hco.2

/-- C9: the two interval-clipping branches of `JPT.infer` are dead code:
each loop ranges only over variables of the query/evidence map that are
absent from the leaf path, so the `var in leaf.path` guard is always
false, and `infer` is extensionally equal to the variant with the two
branches removed. -/
theorem infer_eq_inferPlain (t : JPT) (query evidence : List (Var × QVal)) :
    t.infer query evidence = t.inferPlain query evidence := by
  unfold JPT.infer JPT.inferPlain JPT.evidenceMass JPT.leafW
  simp only [pFactor_eq_plain]

/-- C7: `apply(query)` returns exactly the leaves `l` with
`l.applies(query)` true when every query variable belongs to the tree,
the returned collection is invariant (up to permutation) under
reordering of the leaf table, and a query mentioning a foreign variable
fails with a `TypeError` naming exactly the offending variables and
yields no leaf. -/
theorem apply_spec (t : JPT) (q : List (Var × QVal)) :
    ((∀ p ∈ q, p.1 ∈ t.variables) →
      ∃ ls, t.apply q = Except.ok ls ∧
        (∀ l, l ∈ ls ↔ l ∈ t.leaves ∧ l.applies q = true) ∧
        (∀ ls₂ : List Leaf, ls₂.Perm t.leaves →
          ∃ rs, JPT.apply ⟨t._variables, t.min_samples_leaf, ls₂, t.rootSamples,
              t.parent, t.data, t.relEntropy⟩ q = Except.ok rs ∧ rs.Perm ls)) ∧
    ((∃ p ∈ q, p.1 ∉ t.variables) →
      ∃ vs, t.apply q = Except.error (PyErr.typeError vs) ∧ vs ≠ [] ∧
        (∀ v ∈ vs, v ∈ q.map Prod.fst ∧ v ∉ t.variables)) := by
  constructor
  · intro h
    have hall : (q.all fun p => t.variables.contains p.1) = true := by
      rw [List.all_eq_true]
      intro p hp
      exact List.elem_eq_true_of_mem (h p hp)
    refine ⟨t.leaves.filter fun l => l.applies q, ?_, ?_, ?_⟩
    · unfold JPT.apply
      rw [if_pos hall]
    · intro l
      rw [List.mem_filter]
    · intro ls₂ hperm
      refine ⟨ls₂.filter fun l => l.applies q, ?_, ?_⟩
      · unfold JPT.apply
        rw [if_pos]
        exact hall
      · exact hperm.filter _
  · rintro ⟨p, hp, hnp⟩
    have hnall : ¬((q.all fun p => t.variables.contains p.1) = true) := by
      rw [List.all_eq_true]
      intro hc
      exact hnp (List.mem_of_elem_eq_true (hc p hp))
    refine ⟨(q.map Prod.fst).filter fun v => !t.variables.contains v, ?_, ?_, ?_⟩
    · unfold JPT.apply
      rw [if_neg hnall]
    · have hmem : p.1 ∈ (q.map Prod.fst).filter fun v => !t.variables.contains v := by
        rw [List.mem_filter]
        refine ⟨List.mem_map_of_mem Prod.fst hp, ?_⟩
        simp only [Bool.not_eq_true']
        exact Bool.eq_false_iff.mpr fun hc => hnp (List.mem_of_elem_eq_true hc)
      exact List.ne_nil_of_mem hmem
    · intro v hv
      rw [List.mem_filter] at hv
      refine ⟨hv.1, fun hc => ?_⟩
      have := hv.2
      rw [Bool.not_eq_true', Bool.eq_false_iff] at this
      exact this (List.elem_eq_true_of_mem hc)

/-- Witness for C7: a concrete one-variable, one-leaf tree exercising
both the valid-query and the foreign-variable branches of `apply_spec`. -/
def varW7 : Var := ⟨0, VKind.symbolic, 2, 0⟩

/-- Witness for C7: a variable foreign to the witness tree. -/
def varW7f : Var := ⟨1, VKind.numeric, 0, 0⟩

/-- Witness for C7: a one-leaf tree over `varW7`. -/
def leafW7 : Leaf := ⟨0, 1, [], fun _ => ⟨fun _ => 1⟩⟩

/-- Witness for C7: the concrete tree. -/
def treeW7 : JPT := ⟨[varW7], 1, [leafW7], 1, fun _ => none, fun _ _ => 0, fun _ => 0⟩

theorem apply_spec_witness :
    (∀ p ∈ [(varW7, QVal.sym 0)], p.1 ∈ treeW7.variables) ∧
    (∃ ls, treeW7.apply [(varW7, QVal.sym 0)] = Except.ok ls ∧
      (∀ l, l ∈ ls ↔ l ∈ treeW7.leaves ∧ l.applies [(varW7, QVal.sym 0)] = true) ∧
      (∀ ls₂ : List Leaf, ls₂.Perm treeW7.leaves →
        ∃ rs, JPT.apply ⟨treeW7._variables, treeW7.min_samples_leaf, ls₂, treeW7.rootSamples,
            treeW7.parent, treeW7.data, treeW7.relEntropy⟩ [(varW7, QVal.sym 0)] = Except.ok rs ∧
          rs.Perm ls)) ∧
    (∃ p ∈ [(varW7f, QVal.num Ival.univ)], p.1 ∉ treeW7.variables) ∧
    (∃ vs, treeW7.apply [(varW7f, QVal.num Ival.univ)] = Except.error (PyErr.typeError vs) ∧
      vs ≠ [] ∧ ∀ v ∈ vs, v ∈ [(varW7f, QVal.num Ival.univ)].map Prod.fst ∧ v ∉ treeW7.variables) := by
  have h1 : ∀ p ∈ [(varW7, QVal.sym 0)], p.1 ∈ treeW7.variables := by
    intro p hp
    simp only [List.mem_singleton] at hp
    subst hp
    simp [treeW7, JPT.variables]
  have h2 : ∃ p ∈ [(varW7f, QVal.num Ival.univ)], p.1 ∉ treeW7.variables := by
    refine ⟨(varW7f, QVal.num Ival.univ), List.mem_singleton_self _, ?_⟩
    simp [treeW7, JPT.variables, varW7f, varW7]
  exact ⟨h1, (apply_spec treeW7 [(varW7, QVal.sym 0)]).1 h1, h2,
    (apply_spec treeW7 [(varW7f, QVal.num Ival.univ)]).2 h2⟩

/-- Auxiliary: the evidence factor of an empty evidence map is 1. -/
theorem pFactor_nil (l : Leaf) : pFactor l [] = 1 := rfl

/-- Auxiliary: every leaf is consistent with the empty query. -/
theorem applies_nil (l : Leaf) : l.applies [] = true := rfl

/-- Auxiliary: `apply` with the empty query yields every leaf. -/
theorem apply_nil (t : JPT) : t.apply [] = Except.ok t.leaves := by
  unfold JPT.apply
  simp [applies_nil]

/-- Auxiliary: with empty evidence the matched weight is the leaf sample
total divided by the root sample count. -/
theorem evidenceMass_nil (t : JPT) :
    t.evidenceMass [] t.leaves = (t.leaves.map Leaf.samples).sum * t.rootSamples⁻¹ := by
  unfold JPT.evidenceMass JPT.leafW
  simp only [pFactor_nil, one_mul, div_eq_mul_inv]
  exact List.sum_map_mul_right t.leaves Leaf.samples t.rootSamples⁻¹

/-- Auxiliary: the value `infer` returns when no failure condition
fires, spelled out. -/
theorem infer_ok (t : JPT) (query evidence : List (Var × QVal)) (ls : List Leaf)
    (happ : t.apply evidence = Except.ok ls)
    (hw : ¬(t.rootSamples = 0 ∧ ls.isEmpty = false))
    (hm : t.evidenceMass evidence ls ≠ 0) :
    t.infer query evidence = Except.ok
      ⟨query, evidence,
        ((ls.filter fun l => l.applies query).map
            fun l => t.leafW evidence l * pFactor l query).sum / t.evidenceMass evidence ls,
        (ls.filter fun l => l.applies query).map Leaf.idx,
        (ls.filter fun l => l.applies query).map
          fun l => t.leafW evidence l * pFactor l query⟩ := by
  unfold JPT.infer
  rw [happ]
  simp only [if_neg hw, if_neg hm]

/-- C6: on a tree built from non-empty data (non-zero root sample count,
non-zero leaf sample total), `infer` with empty query and empty evidence
returns exactly 1, because `p_q` and `p_e` coincide when neither map
constrains any variable. -/
theorem infer_empty_query_evidence_one (t : JPT) (hr : t.rootSamples ≠ 0)
    (hs : (t.leaves.map Leaf.samples).sum ≠ 0) :
    ∃ res, t.infer [] [] = Except.ok res ∧ res.result = 1 := by
  have hmass : t.evidenceMass [] t.leaves ≠ 0 := by
    rw [evidenceMass_nil]
    exact mul_ne_zero hs (inv_ne_zero hr)
  have hguard : ¬(t.rootSamples = 0 ∧ t.leaves.isEmpty = false) := fun hc => hr hc.1
  refine ⟨_, infer_ok t [] [] t.leaves (apply_nil t) hguard hmass, ?_⟩
  show ((t.leaves.filter fun l => l.applies []).map
      fun l => t.leafW [] l * pFactor l []).sum / t.evidenceMass [] t.leaves = 1
  have hfil : (t.leaves.filter fun l => l.applies []) = t.leaves := by
    simp [applies_nil]
  rw [hfil]
  have hnum : (t.leaves.map fun l => t.leafW [] l * pFactor l []).sum
      = t.evidenceMass [] t.leaves := by
    unfold JPT.evidenceMass
    simp only [pFactor_nil, mul_one]
  rw [hnum, div_self hmass]

/-- Witness for C6: a concrete one-leaf tree. -/
def leafW6 : Leaf := ⟨0, 1, [], fun _ => ⟨fun _ => 1⟩⟩

/-- Witness for C6: the concrete tree. -/
def treeW6 : JPT := ⟨[⟨0, VKind.numeric, 0, 0⟩], 1, [leafW6], 1, fun _ => none,
  fun _ _ => 0, fun _ => 0⟩

theorem infer_empty_witness :
    treeW6.rootSamples ≠ 0 ∧ (treeW6.leaves.map Leaf.samples).sum ≠ 0 ∧
    ∃ res, treeW6.infer [] [] = Except.ok res ∧ res.result = 1 :=
  ⟨by norm_num [treeW6], by norm_num [treeW6, leafW6],
    infer_empty_query_evidence_one treeW6 (by norm_num [treeW6])
      (by norm_num [treeW6, leafW6])⟩

/-- C1: whenever `infer` runs on evidence whose total matched weight
`p_e` is zero (and no earlier failure fires), the `p_q / p_e` ratio is a
`ZeroDivisionError` failure, not a silent numeric 0 or NaN. -/
theorem infer_zero_evidence_mass_error (t : JPT) (query evidence : List (Var × QVal))
    (ls : List Leaf) (happ : t.apply evidence = Except.ok ls)
    (hw : ¬(t.rootSamples = 0 ∧ ls.isEmpty = false))
    (hm : t.evidenceMass evidence ls = 0) :
    t.infer query evidence = Except.error PyErr.zeroDivisionError := by
  unfold JPT.infer
  rw [happ]
  simp only [if_neg hw]
  rw [if_pos hm]

/-- Witness for C1: a leaf whose distributions assign zero mass to the
evidence value, so the total matched weight is zero. -/
def varW1 : Var := ⟨0, VKind.symbolic, 2, 0⟩

/-- Witness for C1: the zero-mass leaf. -/
def leafW1 : Leaf := ⟨0, 1, [], fun _ => ⟨fun _ => 0⟩⟩

/-- Witness for C1: the concrete tree. -/
def treeW1 : JPT := ⟨[varW1], 1, [leafW1], 1, fun _ => none, fun _ _ => 0, fun _ => 0⟩

theorem infer_zero_evidence_mass_witness :
    treeW1.apply [(varW1, QVal.sym 0)] = Except.ok [leafW1] ∧
    treeW1.evidenceMass [(varW1, QVal.sym 0)] [leafW1] = 0 ∧
    treeW1.infer [] [(varW1, QVal.sym 0)] = Except.error PyErr.zeroDivisionError := by
  have happ : treeW1.apply [(varW1, QVal.sym 0)] = Except.ok [leafW1] := by
    simp [JPT.apply, JPT.variables, treeW1, Leaf.applies, leafW1]
  have hm : treeW1.evidenceMass [(varW1, QVal.sym 0)] [leafW1] = 0 := by
    simp [JPT.evidenceMass, JPT.leafW, pFactor, treeW1, leafW1]
  exact ⟨happ, hm,
    infer_zero_evidence_mass_error treeW1 [] [(varW1, QVal.sym 0)] [leafW1] happ
      (by simp [treeW1]) hm⟩

/-- Embedding of `np.unique`: the ascending sorted distinct values of a column. -/
def sortedDistinct (col : List ℚ) : List ℚ :=
  List.insertionSort (fun a b => a ≤ b) col.dedup

/-- Embedding of `JPT.impurity`: 0 on an empty index set; for a symbolic
variable the relative entropy of the empirical label distribution (the
external `rel_entropy` applied to the per-distinct-value frequencies);
for a numeric variable the mean squared error of the column about its
mean. -/
def JPT.impurity (t : JPT) (indices : List ℕ) (v : Var) : ℚ :=
  if indices = [] then 0
  else
    let vi := t.variables.indexOf v
    let col := indices.map fun i => t.data i vi
    if v.symbolic then
      t.relEntropy ((sortedDistinct col).map fun d => (col.count d : ℚ) / col.length)
    else
      let m := col.sum / col.length
      (col.map fun y => (y - m) ^ 2).sum / col.length

/-- The candidate split points for a numeric feature: the midpoints of
consecutive distinct observed values, or the distinct values themselves
when fewer than two exist. -/
def midpoints (distinct : List ℚ) : List ℚ :=
  if distinct.length ≤ 1 then distinct
  else (distinct.zip distinct.tail).map fun p => (p.1 + p.2) / 2

/-- Embedding of `JPT.gains`: the mapping from candidate-split key to
gain for feature `ft` and target `tgt` over `indices0`.  A symbolic
feature has the single sentinel key `none`; a numeric feature has one key
per midpoint.  The numeric gain reproduces the source expression
literally: `impurity - (impurity(left) * |left| / n + impurity(right) *
|right|) / n`, in which the left term is divided by `n` twice. -/
def JPT.gains (t : JPT) (indices0 : List ℕ) (ft tgt : Var) : List (Option ℚ × ℚ) :=
  if indices0 = [] then [(none, 0)]
  else
    let imp := t.impurity indices0 tgt
    let fti := t.variables.indexOf ft
    let indices := List.insertionSort (fun i j => t.data i fti ≤ t.data j fti) indices0
    let distinct := sortedDistinct (indices.map fun i => t.data i fti)
    if ft.symbolic then
      let partition := distinct.map fun val => indices.filter fun i => t.data i fti = val
      if partition.all fun par => t.min_samples_leaf ≤ par.length then
        let g := imp - (partition.map
          fun par => ((par.length : ℚ) / indices.length) * t.impurity par tgt).sum
        [(none, if g < ft.minImpurityImprovement then 0 else g)]
      else [(none, 0)]
    else
      (midpoints distinct).map fun mv =>
        let left := indices.filter fun i => t.data i fti ≤ mv
        let right := indices.filter fun i => mv < t.data i fti
        (some mv,
          if t.min_samples_leaf ≤ left.length ∧ t.min_samples_leaf ≤ right.length then
            imp - (t.impurity left tgt * left.length / indices.length
                   + t.impurity right tgt * right.length) / indices.length
          else 0)

/-- The numeric-split gain as claim C2 and spec §4.1 state it:
`impurity - (|left| * impurity(left) + |right| * impurity(right)) / n`,
the weighted child impurities summed before a single division by the row
count.  Written from the specification text for comparison against
`JPT.gains`. -/
def JPT.gainsSpecNumeric (t : JPT) (indices0 : List ℕ) (ft tgt : Var) :
    List (Option ℚ × ℚ) :=
  if indices0 = [] then [(none, 0)]
  else
    let imp := t.impurity indices0 tgt
    let fti := t.variables.indexOf ft
    let indices := List.insertionSort (fun i j => t.data i fti ≤ t.data j fti) indices0
    let distinct := sortedDistinct (indices.map fun i => t.data i fti)
    (midpoints distinct).map fun mv =>
      let left := indices.filter fun i => t.data i fti ≤ mv
      let right := indices.filter fun i => mv < t.data i fti
      (some mv,
        if t.min_samples_leaf ≤ left.length ∧ t.min_samples_leaf ≤ right.length then
          imp - (t.impurity left tgt * left.length
                 + t.impurity right tgt * right.length) / indices.length
        else 0)

/-- Failing input for C2: the numeric split feature column. -/
def varXC2 : Var := ⟨0, VKind.numeric, 0, 0⟩

/-- Failing input for C2: the numeric target column. -/
def varYC2 : Var := ⟨1, VKind.numeric, 0, 0⟩

/-- Failing input for C2: four rows with X = [1,1,3,3] and
Y = [0,2,0,4]. -/
def dataC2 : ℕ → ℕ → ℚ := fun i j =>
  if j = 0 then (if i ≤ 1 then 1 else 3)
  else (if i = 0 then 0 else if i = 1 then 2 else if i = 2 then 0 else 4)

/-- Failing input for C2: the tree holding the four-row matrix. -/
def treeC2 : JPT := ⟨[varXC2, varYC2], 1, [], 0, fun _ => none, dataC2, fun _ => 0⟩

/-- C2 (code bug): on X = [1,1,3,3], Y = [0,2,0,4] with midpoint 2 the
source computes gain 5/8, while the gain formula of the claim (total
impurity 11/4 minus the weighted child impurities (2·1 + 2·4)/4) gives
1/4: the code divides the left child's weighted impurity by the row
count twice. -/
theorem gains_numeric_formula_bug :
    treeC2.gains [0, 1, 2, 3] varXC2 varYC2 = [(some 2, 5/8)] ∧
    treeC2.gainsSpecNumeric [0, 1, 2, 3] varXC2 varYC2 = [(some 2, 1/4)] ∧
    (5/8 : ℚ) ≠ 1/4 := by
  have hks : ¬(VKind.numeric = VKind.symbolic) := by decide
  have h4 : ([0, 1, 2, 3] : List ℕ) ≠ [] := by decide
  have h2a : ([0, 1] : List ℕ) ≠ [] := by decide
  have h2b : ([2, 3] : List ℕ) ≠ [] := by decide
  refine ⟨?_, ?_, by norm_num⟩ <;>
    norm_num [hks, h4, h2a, h2b, JPT.gains, JPT.gainsSpecNumeric, JPT.impurity,
      JPT.variables, midpoints, sortedDistinct, treeC2, dataC2, varXC2, varYC2,
      Var.symbolic, List.insertionSort, List.orderedInsert, List.dedup_cons_of_mem,
      List.dedup_cons_of_not_mem, List.filter]

/-- The running maximum `maxval` of `compute_best_split`: starting from
0, fold the maximum over every gain value of target `tgt` across all
features. -/
def JPT.maxGainVal (t : JPT) (indices : List ℕ) (tgt : Var) : ℚ :=
  t.variables.foldl (fun acc ft => ((t.gains indices ft tgt).map Prod.snd).foldl max acc) 0

/-- The per-target normalised gain map of `compute_best_split`:
`g / maxval` when `maxval > 0`, else 0 (no division by zero). -/
def JPT.normGains (t : JPT) (indices : List ℕ) (tgt ft : Var) : List (Option ℚ × ℚ) :=
  (t.gains indices ft tgt).map fun p =>
    (p.1, if 0 < t.maxGainVal indices tgt then p.2 / t.maxGainVal indices tgt else 0)

/-- Dictionary access with the `defaultdict` reading used when
regrouping gain maps: the value at key `k`, 0 when absent. -/
def lookup0 (l : List (Option ℚ × ℚ)) (k : Option ℚ) : ℚ :=
  match l.lookup k with
  | some v => v
  | none => 0

/-- The combined score of one `(feature, candidate)` pair in
`compute_best_split`: `np.mean` of the normalised gains across all
targets, i.e. their sum divided by the number of variables. -/
def JPT.combinedGain (t : JPT) (indices : List ℕ) (ft : Var) (sp : Option ℚ) : ℚ :=
  (t.variables.map fun tgt => lookup0 (t.normGains indices tgt ft) sp).sum
    / t.variables.length

/-- The candidate keys of feature `ft` (the key set of its gain map,
which does not depend on the target; see `gains_fst_indep`). -/
def JPT.candKeys (t : JPT) (indices : List ℕ) (ft : Var) : List (Option ℚ) :=
  (t.gains indices ft ft).map Prod.fst

/-- The `(feature, candidate)` pairs enumerated by the final argmax loop
of `compute_best_split`, in stable feature-then-candidate order (the
insertion order of the source's `gains_ft_hm` dict-of-dicts). -/
def JPT.splitPairs (t : JPT) (indices : List ℕ) : List (Var × Option ℚ) :=
  (t.variables.map fun ft => (t.candKeys indices ft).map fun sp => (ft, sp)).flatten

/-- One step of the argmax loop: strict improvement over the best
combined score so far (initially -1). -/
def argmaxStep (f : Var × Option ℚ → ℚ) (acc : Option (Var × Option ℚ) × ℚ)
    (p : Var × Option ℚ) : Option (Var × Option ℚ) × ℚ :=
  if acc.2 < f p then (some p, f p) else acc

/-- Embedding of `JPT.compute_best_split`: compute every gain map,
normalise per target by the running maximum, regroup by (feature,
candidate), and return the feature index, candidate key and score of the
maximal arithmetic-mean combined gain.  `none` models the `ValueError`
raised by `variables.index(None)` when no pair ever improves on -1. -/
def JPT.compute_best_split (t : JPT) (indices : List ℕ) : Option (ℕ × Option ℚ × ℚ) :=
  match (t.splitPairs indices).foldl
      (argmaxStep fun p => t.combinedGain indices p.1 p.2) (none, -1) with
  | (some p, mg) => some (t.variables.indexOf p.1, p.2, mg)
  | (none, _) => none

/-- The key list of a gain map does not depend on the target variable. -/
theorem gains_fst_indep (t : JPT) (indices : List ℕ) (ft tgt : Var) :
    (t.gains indices ft tgt).map Prod.fst = t.candKeys indices ft := by
  unfold JPT.candKeys JPT.gains
  by_cases hi : indices = []
  · simp [hi]
  · simp only [if_neg hi]
    by_cases hs : ft.symbolic
    · simp only [if_pos hs]
      split <;> simp
    · simp only [if_neg hs, List.map_map]
      rfl

/-- A sort of a non-empty list is non-empty. -/
theorem insertionSort_ne_nil {α : Type} (r : α → α → Prop) [DecidableRel r]
    (l : List α) (h : l ≠ []) : List.insertionSort r l ≠ [] := by
  intro hc
  have p := List.perm_insertionSort r l
  rw [hc] at p
  exact h p.symm.eq_nil

/-- The distinct values of a non-empty column are non-empty. -/
theorem sortedDistinct_ne_nil (col : List ℚ) (h : col ≠ []) : sortedDistinct col ≠ [] := by
  apply insertionSort_ne_nil
  intro hc
  exact h ((List.dedup_eq_nil _).mp hc)

/-- There is at least one candidate split point for a non-empty list of
distinct values. -/
theorem midpoints_ne_nil (d : List ℚ) (h : d ≠ []) : midpoints d ≠ [] := by
  unfold midpoints
  split
  · exact h
  · rename_i hlen
    simp only [ne_eq, List.map_eq_nil_iff]
    intro hc
    have hz := congrArg List.length hc
    rw [List.length_zip, List.length_tail, List.length_nil] at hz
    omega

/-- The candidate key list of a feature is never empty. -/
theorem candKeys_ne_nil (t : JPT) (indices : List ℕ) (ft : Var) :
    t.candKeys indices ft ≠ [] := by
  unfold JPT.candKeys JPT.gains
  by_cases hi : indices = []
  · simp [hi]
  · simp only [if_neg hi]
    by_cases hs : ft.symbolic
    · simp only [if_pos hs]
      split <;> simp
    · simp only [if_neg hs]
      have hsort : List.insertionSort
          (fun i j => t.data i (t.variables.indexOf ft) ≤ t.data j (t.variables.indexOf ft))
          indices ≠ [] := insertionSort_ne_nil _ indices hi
      have hcol : (List.insertionSort
          (fun i j => t.data i (t.variables.indexOf ft) ≤ t.data j (t.variables.indexOf ft))
          indices).map (fun i => t.data i (t.variables.indexOf ft)) ≠ [] := by
        simpa [List.map_eq_nil_iff] using hsort
      have hmid := midpoints_ne_nil _ (sortedDistinct_ne_nil _ hcol)
      simpa [List.map_eq_nil_iff] using hmid

/-- A gain map is never empty. -/
theorem gains_ne_nil (t : JPT) (indices : List ℕ) (ft tgt : Var) :
    t.gains indices ft tgt ≠ [] := by
  intro hc
  have hkeys := gains_fst_indep t indices ft tgt
  rw [hc] at hkeys
  exact candKeys_ne_nil t indices ft (by simpa using hkeys.symm)

/-- Invariant of the argmax fold of `compute_best_split`: the final
score bounds every candidate's score and the initial score, and the
final state is either the initial state or achieves the score of some
enumerated pair. -/
theorem argmax_fold (f : Var × Option ℚ → ℚ) (l : List (Var × Option ℚ))
    (o : Option (Var × Option ℚ)) (m : ℚ) :
    (∀ q ∈ l, f q ≤ (l.foldl (argmaxStep f) (o, m)).2) ∧
    m ≤ (l.foldl (argmaxStep f) (o, m)).2 ∧
    (l.foldl (argmaxStep f) (o, m) = (o, m) ∨
      ∃ p ∈ l, l.foldl (argmaxStep f) (o, m) = (some p, f p)) := by
  induction l generalizing o m with
  | nil => simp
  | cons a l ih =>
    simp only [List.foldl_cons]
    by_cases h : m < f a
    · have hstep : argmaxStep f (o, m) a = (some a, f a) := by simp [argmaxStep, h]
      rw [hstep]
      obtain ⟨ih1, ih2, ih3⟩ := ih (some a) (f a)
      refine ⟨?_, le_trans h.le ih2, ?_⟩
      · intro q hq
        rcases List.mem_cons.mp hq with rfl | hq2
        · exact ih2
        · exact ih1 q hq2
      · rcases ih3 with heq | ⟨p, hp, heq⟩
        · exact Or.inr ⟨a, List.mem_cons_self a l, heq⟩
        · exact Or.inr ⟨p, List.mem_cons_of_mem a hp, heq⟩
    · have hstep : argmaxStep f (o, m) a = (o, m) := by simp [argmaxStep, h]
      rw [hstep]
      obtain ⟨ih1, ih2, ih3⟩ := ih o m
      refine ⟨?_, ih2, ?_⟩
      · intro q hq
        rcases List.mem_cons.mp hq with rfl | hq2
        · exact le_trans (not_lt.mp h) ih2
        · exact ih1 q hq2
      · rcases ih3 with heq | ⟨p, hp, heq⟩
        · exact Or.inl heq
        · exact Or.inr ⟨p, List.mem_cons_of_mem a hp, heq⟩

/-- A successful lookup returns a stored pair. -/
theorem mem_of_lookup_eq_some {l : List (Option ℚ × ℚ)} {k : Option ℚ} {v : ℚ}
    (h : l.lookup k = some v) : (k, v) ∈ l := by
  induction l with
  | nil => cases h
  | cons a l2 ih =>
    rw [show a = (a.1, a.2) from rfl, List.lookup_cons] at h
    by_cases hk : (k == a.1) = true
    · simp only [hk] at h
      have hv : a.2 = v := Option.some.inj h
      have hkk : k = a.1 := eq_of_beq hk
      rw [hkk, ← hv]
      exact List.mem_cons_self _ _
    · rw [Bool.not_eq_true] at hk
      simp only [hk] at h
      exact List.mem_cons_of_mem _ (ih h)

/-- Lookup commutes with mapping over the values of an association
list. -/
theorem lookup_map_snd (l : List (Option ℚ × ℚ)) (k : Option ℚ) (f : ℚ → ℚ) :
    (l.map fun p => (p.1, f p.2)).lookup k = (l.lookup k).map f := by
  induction l with
  | nil => rfl
  | cons a l2 ih =>
    rw [List.map_cons, List.lookup_cons,
      show a = (a.1, a.2) from rfl, List.lookup_cons]
    by_cases hk : (k == a.1) = true
    · simp [hk]
    · rw [Bool.not_eq_true] at hk
      simp only [hk]
      exact ih

/-- The maximum of a list of gain values, as the claim's "maximum
observed gain" (0 for an empty list). -/
def maxObserved (l : List ℚ) : ℚ :=
  match l with
  | [] => 0
  | h :: t2 => t2.foldl max h

/-- Claim-side score of C3: for each target, normalise the gain of the
`(ft, sp)` pair by that target's own maximum observed gain across every
feature's gain map (0 for every entry when that maximum is 0), then take
the arithmetic mean across all target variables. -/
def JPT.specCombinedMean (t : JPT) (indices : List ℕ) (ft : Var) (sp : Option ℚ) : ℚ :=
  (t.variables.map fun tgt =>
    if maxObserved ((t.variables.map
          fun f2 => (t.gains indices f2 tgt).map Prod.snd).flatten) = 0 then 0
    else lookup0 (t.gains indices ft tgt) sp
      / maxObserved ((t.variables.map
          fun f2 => (t.gains indices f2 tgt).map Prod.snd).flatten)).sum
    / t.variables.length

/-- The running maximum of `compute_best_split` is the fold of `max`
from 0 over the concatenation of all gain values of the target. -/
theorem maxGainVal_eq_foldl (t : JPT) (indices : List ℕ) (tgt : Var) :
    t.maxGainVal indices tgt =
      ((t.variables.map fun ft => (t.gains indices ft tgt).map Prod.snd).flatten).foldl
        max 0 := by
  unfold JPT.maxGainVal
  rw [List.foldl_flatten, List.foldl_map]

/-- The initial accumulator bounds a `max` fold from below. -/
theorem foldl_max_init_le (l : List ℚ) (a : ℚ) : a ≤ l.foldl max a := by
  induction l generalizing a with
  | nil => simp
  | cons b l2 ih => exact le_trans (le_max_left a b) (ih (max a b))

/-- Folding `max` from 0 over a non-empty list of non-negative values is
the list's maximum. -/
theorem foldl_max_zero_eq_maxObserved (l : List ℚ) (hl : l ≠ [])
    (h : ∀ x ∈ l, 0 ≤ x) : l.foldl max 0 = maxObserved l := by
  cases l with
  | nil => exact absurd rfl hl
  | cons a l2 =>
    show List.foldl max (max 0 a) l2 = List.foldl max a l2
    rw [max_eq_right (h a (List.mem_cons_self a l2))]

/-- Membership in the enumerated `(feature, candidate)` pairs. -/
theorem mem_splitPairs (t : JPT) (indices : List ℕ) (p : Var × Option ℚ) :
    p ∈ t.splitPairs indices ↔ p.1 ∈ t.variables ∧ p.2 ∈ t.candKeys indices p.1 := by
  unfold JPT.splitPairs
  simp only [List.mem_flatten, List.mem_map]
  constructor
  · rintro ⟨l2, ⟨ft, hft, rfl⟩, hp⟩
    rcases List.mem_map.mp hp with ⟨sp, hsp, rfl⟩
    exact ⟨hft, hsp⟩
  · rintro ⟨h1, h2⟩
    exact ⟨(t.candKeys indices p.1).map fun sp => (p.1, sp), ⟨p.1, h1, rfl⟩,
      List.mem_map.mpr ⟨p.2, h2, rfl⟩⟩

/-- The per-target flattened gain value list is non-empty when there is
at least one variable. -/
theorem flat_gains_ne_nil (t : JPT) (indices : List ℕ) (tgt : Var)
    (hv : t.variables ≠ []) :
    ((t.variables.map fun f2 => (t.gains indices f2 tgt).map Prod.snd).flatten) ≠ [] := by
  obtain ⟨v0, vs, hveq⟩ := List.exists_cons_of_ne_nil hv
  rw [hveq, List.map_cons, List.flatten_cons]
  intro hc
  rcases List.append_eq_nil.mp hc with ⟨h1, _⟩
  exact gains_ne_nil t indices v0 tgt (List.map_eq_nil_iff.mp h1)

/-- Every flattened gain value is one of the target's gains. -/
theorem flat_gains_nonneg (t : JPT) (indices : List ℕ) (tgt : Var)
    (htgt : tgt ∈ t.variables)
    (hg : ∀ tg ∈ t.variables, ∀ f2 ∈ t.variables, ∀ p ∈ t.gains indices f2 tg, 0 ≤ p.2) :
    ∀ x ∈ ((t.variables.map fun f2 => (t.gains indices f2 tgt).map Prod.snd).flatten),
      0 ≤ x := by
  intro x hx
  rcases List.mem_flatten.mp hx with ⟨l2, hl2, hxl⟩
  rcases List.mem_map.mp hl2 with ⟨f2, hf2, rfl⟩
  rcases List.mem_map.mp hxl with ⟨p, hp, rfl⟩
  exact hg tgt htgt f2 hf2 p hp

/-- The imperative normalisation and regrouping of `compute_best_split`
computes exactly the claim-side score: per-target normalisation by the
maximum observed gain with the zero-maximum guard, then the arithmetic
mean over targets. -/
theorem combinedGain_eq_spec (t : JPT) (indices : List ℕ) (ft : Var) (sp : Option ℚ)
    (hv : t.variables ≠ [])
    (hg : ∀ tg ∈ t.variables, ∀ f2 ∈ t.variables, ∀ p ∈ t.gains indices f2 tg, 0 ≤ p.2) :
    t.combinedGain indices ft sp = t.specCombinedMean indices ft sp := by
  unfold JPT.combinedGain JPT.specCombinedMean
  congr 1
  refine congrArg List.sum (List.map_congr_left ?_)
  intro tgt htgt
  have hm : t.maxGainVal indices tgt =
      maxObserved ((t.variables.map fun f2 => (t.gains indices f2 tgt).map Prod.snd).flatten) := by
    rw [maxGainVal_eq_foldl]
    exact foldl_max_zero_eq_maxObserved _ (flat_gains_ne_nil t indices tgt hv)
      (flat_gains_nonneg t indices tgt htgt hg)
  have hm0 : 0 ≤ t.maxGainVal indices tgt := by
    rw [maxGainVal_eq_foldl]
    exact foldl_max_init_le _ 0
  rw [← hm]
  unfold JPT.normGains lookup0
  rw [lookup_map_snd (t.gains indices ft tgt) sp
    (fun x => if 0 < t.maxGainVal indices tgt then x / t.maxGainVal indices tgt else 0)]
  by_cases hz : t.maxGainVal indices tgt = 0
  · rw [if_pos hz, hz]
    simp only [lt_irrefl, if_false]
    cases (t.gains indices ft tgt).lookup sp <;> simp
  · have hpos : 0 < t.maxGainVal indices tgt := lt_of_le_of_ne hm0 (Ne.symm hz)
    rw [if_neg hz]
    simp only [if_pos hpos]
    cases (t.gains indices ft tgt).lookup sp with
    | none => simp
    | some v => simp

/-- The combined score of any enumerated pair is non-negative when every
gain is. -/
theorem combinedGain_nonneg (t : JPT) (indices : List ℕ) (q : Var × Option ℚ)
    (hg : ∀ tg ∈ t.variables, ∀ f2 ∈ t.variables, ∀ p ∈ t.gains indices f2 tg, 0 ≤ p.2)
    (hq1 : q.1 ∈ t.variables) :
    0 ≤ t.combinedGain indices q.1 q.2 := by
  unfold JPT.combinedGain
  apply div_nonneg
  · apply List.sum_nonneg
    intro x hx
    rcases List.mem_map.mp hx with ⟨tgt, htgt, rfl⟩
    unfold lookup0
    cases hl : (t.normGains indices tgt q.1).lookup q.2 with
    | none => exact le_refl 0
    | some v =>
      have hmem := mem_of_lookup_eq_some hl
      unfold JPT.normGains at hmem
      rcases List.mem_map.mp hmem with ⟨pr, hpr, heq2⟩
      have hv2 : (if 0 < t.maxGainVal indices tgt
          then pr.2 / t.maxGainVal indices tgt else 0) = v :=
        congrArg Prod.snd heq2
      rw [← hv2]
      by_cases hpos : 0 < t.maxGainVal indices tgt
      · rw [if_pos hpos]
        exact div_nonneg (hg tgt htgt q.1 hq1 pr hpr) hpos.le
      · rw [if_neg hpos]
  · exact Nat.cast_nonneg _

/-- C3: on a non-empty row set (and non-empty variable list, with the
gain maps non-negative as entropy/MSE impurities guarantee),
`compute_best_split` returns a `(feature index, candidate, score)`
triple whose score is the arithmetic mean over all targets of the gains
normalised by each target's own maximum observed gain (0 whenever that
maximum is 0, so no division by zero occurs), and that score is maximal
over all `(feature, candidate)` pairs. -/
theorem compute_best_split_spec (t : JPT) (indices : List ℕ)
    (hi : indices ≠ []) (hv : t.variables ≠ [])
    (hg : ∀ tg ∈ t.variables, ∀ f2 ∈ t.variables, ∀ p ∈ t.gains indices f2 tg, 0 ≤ p.2) :
    ∃ ftb ∈ t.variables, ∃ sp ∈ t.candKeys indices ftb,
      t.compute_best_split indices =
        some (t.variables.indexOf ftb, sp, t.specCombinedMean indices ftb sp) ∧
      ∀ ft ∈ t.variables, ∀ sp2 ∈ t.candKeys indices ft,
        t.specCombinedMean indices ft sp2 ≤ t.specCombinedMean indices ftb sp := by
  obtain ⟨v0, vs, hveq⟩ := List.exists_cons_of_ne_nil hv
  obtain ⟨sp0, sps, hckeq⟩ := List.exists_cons_of_ne_nil (candKeys_ne_nil t indices v0)
  have hq0 : (v0, sp0) ∈ t.splitPairs indices := by
    refine (mem_splitPairs t indices (v0, sp0)).mpr ⟨?_, ?_⟩
    · rw [hveq]
      exact List.mem_cons_self v0 vs
    · show sp0 ∈ t.candKeys indices v0
      rw [hckeq]
      exact List.mem_cons_self sp0 sps
  obtain ⟨h1, h2, h3⟩ := argmax_fold (fun p => t.combinedGain indices p.1 p.2)
    (t.splitPairs indices) none (-1)
  rcases h3 with heq | ⟨p, hp, heq⟩
  · exfalso
    have hb := h1 _ hq0
    rw [heq] at hb
    have h0 := combinedGain_nonneg t indices (v0, sp0) hg
      ((mem_splitPairs t indices (v0, sp0)).mp hq0).1
    have : (0 : ℚ) ≤ -1 := le_trans h0 hb
    linarith
  · have hpmem := (mem_splitPairs t indices p).mp hp
    refine ⟨p.1, hpmem.1, p.2, hpmem.2, ?_, ?_⟩
    · unfold JPT.compute_best_split
      rw [heq, combinedGain_eq_spec t indices p.1 p.2 hv hg]
    · intro ft hft sp2 hsp2
      have hple := h1 (ft, sp2) ((mem_splitPairs t indices (ft, sp2)).mpr ⟨hft, hsp2⟩)
      rw [heq] at hple
      calc t.specCombinedMean indices ft sp2
          = t.combinedGain indices ft sp2 :=
            (combinedGain_eq_spec t indices ft sp2 hv hg).symm
        _ ≤ t.combinedGain indices p.1 p.2 := hple
        _ = t.specCombinedMean indices p.1 p.2 :=
            combinedGain_eq_spec t indices p.1 p.2 hv hg

/-- Witness for C3: a single numeric variable. -/
def varXC3 : Var := ⟨0, VKind.numeric, 0, 0⟩

/-- Witness for C3: two rows with X = [0,1]. -/
def dataC3 : ℕ → ℕ → ℚ := fun i _ => if i = 0 then 0 else 1

/-- Witness for C3: the concrete tree. -/
def treeC3 : JPT := ⟨[varXC3], 1, [], 0, fun _ => none, dataC3, fun _ => 0⟩

/-- Witness for C3: the single gain map of the witness tree. -/
theorem treeC3_gains_eval :
    treeC3.gains [0, 1] varXC3 varXC3 = [(some (1/2 : ℚ), 1/4)] := by
  have hks : ¬(VKind.numeric = VKind.symbolic) := by decide
  have h01 : ([0, 1] : List ℕ) ≠ [] := by decide
  have h0 : ([0] : List ℕ) ≠ [] := by decide
  have h1 : ([1] : List ℕ) ≠ [] := by decide
  norm_num [hks, h01, h0, h1, JPT.gains, JPT.impurity, JPT.variables, midpoints,
    sortedDistinct, treeC3, dataC3, varXC3, Var.symbolic, List.insertionSort,
    List.orderedInsert, List.dedup_cons_of_mem, List.dedup_cons_of_not_mem,
    List.filter]

theorem compute_best_split_witness :
    ∃ ftb ∈ treeC3.variables, ∃ sp ∈ treeC3.candKeys [0, 1] ftb,
      treeC3.compute_best_split [0, 1] =
        some (treeC3.variables.indexOf ftb, sp, treeC3.specCombinedMean [0, 1] ftb sp) ∧
      ∀ ft ∈ treeC3.variables, ∀ sp2 ∈ treeC3.candKeys [0, 1] ft,
        treeC3.specCombinedMean [0, 1] ft sp2 ≤ treeC3.specCombinedMean [0, 1] ftb sp := by
  refine compute_best_split_spec treeC3 [0, 1] (by decide) (by decide) ?_
  intro tg htg f2 hf2 p hp
  simp only [treeC3, JPT.variables, List.mem_singleton] at htg hf2
  subst htg
  subst hf2
  rw [treeC3_gains_eval] at hp
  rcases List.mem_singleton.mp hp with rfl
  norm_num

/-- Python `int()` applied to a float: truncation toward zero. -/
def pyInt (q : ℚ) : ℤ := if 0 ≤ q then ⌊q⌋ else -⌊-q⌋

/-- The symbolic routing step of `JPT.c45`: one bucket per domain value
`j < nVals`, row `i` appended to bucket `int(data[i][fti])`; bucket
contents keep the original row order. -/
def symbolicSplitData (t : JPT) (fti nVals : ℕ) (indices : List ℕ) : List (List ℕ) :=
  (List.range nVals).map fun (j : ℕ) => indices.filter fun i => pyInt (t.data i fti) = (j : ℤ)

/-- The numeric routing step of `JPT.c45`: bucket 0 receives the rows
with `data[i][fti] ≤ sp` (the `False` branch of `d > sp`), bucket 1 the
rows with `data[i][fti] > sp`. -/
def numericSplitData (t : JPT) (fti : ℕ) (sp : ℚ) (indices : List ℕ) : List (List ℕ) :=
  [indices.filter fun i => t.data i fti ≤ sp, indices.filter fun i => sp < t.data i fti]

/-- Counting an element in the flattened buckets of a key-indexed
filter family. -/
theorem flatten_filter_range_count (f : ℕ → ℤ) (n : ℕ) (l : List ℕ) (x : ℕ) :
    (((List.range n).map fun (j : ℕ) => l.filter fun a => f a = (j : ℤ)).flatten).count x =
      ((List.range n).map fun (j : ℕ) => if f x = (j : ℤ) then l.count x else 0).sum := by
  rw [List.count_flatten, List.map_map]
  congr 1
  apply List.map_congr_left
  intro j hj
  by_cases hpx : f x = (j : ℤ)
  · show (l.filter fun a => decide (f a = (j : ℤ))).count x = _
    rw [if_pos hpx, List.count_filter (by simpa using hpx)]
  · show (l.filter fun a => decide (f a = (j : ℤ))).count x = _
    rw [if_neg hpx]
    apply List.count_eq_zero.mpr
    intro hc
    exact hpx (by simpa using (List.mem_filter.mp hc).2)

/-- A range-indexed indicator sum collapses to its unique hit. -/
theorem sum_indicator_range (n : ℕ) (fx : ℤ) (c : ℕ)
    (hj : ∃ j : ℕ, j < n ∧ fx = (j : ℤ)) :
    ((List.range n).map fun (j : ℕ) => if fx = (j : ℤ) then c else 0).sum = c := by
  induction n with
  | zero =>
    rcases hj with ⟨j, hj0, _⟩
    omega
  | succ n ih =>
    rw [List.range_succ, List.map_append, List.sum_append]
    rcases hj with ⟨j, hjlt, hfx⟩
    by_cases hn : fx = (n : ℤ)
    · have hzero : ((List.range n).map fun (j : ℕ) => if fx = (j : ℤ) then c else 0).sum = 0 := by
        apply List.sum_eq_zero
        intro y hy
        rcases List.mem_map.mp hy with ⟨j2, hj2, rfl⟩
        rw [if_neg]
        intro hc
        rw [hn] at hc
        have := List.mem_range.mp hj2
        omega
      rw [hzero]
      simp [hn]
    · have hjn : j < n := by
        have : j ≠ n := fun hc => hn (hc ▸ hfx)
        omega
      rw [ih ⟨j, hjn, hfx⟩]
      simp [hn]

/-- The key-indexed filter buckets of a list are a permutation of the
list when every element's key is in range. -/
theorem flatten_filter_range_perm (f : ℕ → ℤ) (n : ℕ) (l : List ℕ)
    (h : ∀ a ∈ l, ∃ j : ℕ, j < n ∧ f a = (j : ℤ)) :
    (((List.range n).map fun (j : ℕ) => l.filter fun a => f a = (j : ℤ)).flatten).Perm l := by
  rw [List.perm_iff_count]
  intro x
  rw [flatten_filter_range_count]
  by_cases hx : x ∈ l
  · exact sum_indicator_range n (f x) (l.count x) (h x hx)
  · rw [List.count_eq_zero.mpr hx]
    apply List.sum_eq_zero
    intro y hy
    rcases List.mem_map.mp hy with ⟨j2, _, rfl⟩
    split <;> rfl

/-- C5: both routing steps of `JPT.c45` partition the rows that reached
the node: every row index lands in exactly one child bucket (the
flattened buckets are a permutation of the incoming index list, so no
index is lost or duplicated), and distinct buckets are disjoint.  For
the symbolic case the hypothesis states that the column holds valid
label indices, as guaranteed by the label-to-index encoding of `learn`. -/
theorem c45_routing_partition (t : JPT) (fti nVals : ℕ) (sp : ℚ) (indices : List ℕ)
    (hval : ∀ i ∈ indices, ∃ j : ℕ, j < nVals ∧ pyInt (t.data i fti) = (j : ℤ)) :
    ((symbolicSplitData t fti nVals indices).flatten).Perm indices ∧
    (symbolicSplitData t fti nVals indices).Pairwise
      (fun b1 b2 => ∀ i, i ∈ b1 → i ∉ b2) ∧
    ((numericSplitData t fti sp indices).flatten).Perm indices ∧
    (numericSplitData t fti sp indices).Pairwise
      (fun b1 b2 => ∀ i, i ∈ b1 → i ∉ b2) := by
  refine ⟨?_, ?_, ?_, ?_⟩
  · exact flatten_filter_range_perm (fun i => pyInt (t.data i fti)) nVals indices hval
  · unfold symbolicSplitData
    rw [List.pairwise_map]
    apply List.Pairwise.imp ?_ (List.pairwise_lt_range nVals)
    intro j k hjk i hij hik
    have h1 := (List.mem_filter.mp hij).2
    have h2 := (List.mem_filter.mp hik).2
    simp only [decide_eq_true_eq] at h1 h2
    rw [h1] at h2
    have : j = k := by exact_mod_cast h2
    omega
  · unfold numericSplitData
    have hneg : (indices.filter fun i => sp < t.data i fti) =
        indices.filter fun i => !(decide (t.data i fti ≤ sp)) :=
      List.filter_congr fun i _ => by
        rw [← decide_not]
        exact decide_eq_decide.mpr not_le.symm
    simp only [List.flatten_cons, List.flatten_nil, List.append_nil]
    rw [hneg]
    exact List.filter_append_perm _ indices
  · unfold numericSplitData
    constructor
    · intro b hb
      simp only [List.mem_singleton] at hb
      subst hb
      intro i hi1 hi2
      have h1 := (List.mem_filter.mp hi1).2
      have h2 := (List.mem_filter.mp hi2).2
      simp only [decide_eq_true_eq] at h1 h2
      exact absurd h2 (not_lt.mpr h1)
    · exact List.pairwise_singleton _ _

/-- Witness for C5: three rows with symbolic column values [0,1,0]. -/
def dataC5 : ℕ → ℕ → ℚ := fun i _ => if i = 1 then 1 else 0

/-- Witness for C5: the concrete tree. -/
def treeC5 : JPT := ⟨[⟨0, VKind.symbolic, 2, 0⟩], 1, [], 0, fun _ => none, dataC5, fun _ => 0⟩

theorem c45_routing_witness :
    (∀ i ∈ [0, 1, 2], ∃ j : ℕ, j < 2 ∧ pyInt (treeC5.data i 0) = (j : ℤ)) ∧
    ((symbolicSplitData treeC5 0 2 [0, 1, 2]).flatten).Perm [0, 1, 2] ∧
    (symbolicSplitData treeC5 0 2 [0, 1, 2]).Pairwise
      (fun b1 b2 => ∀ i, i ∈ b1 → i ∉ b2) ∧
    ((numericSplitData treeC5 0 (1/2) [0, 1, 2]).flatten).Perm [0, 1, 2] ∧
    (numericSplitData treeC5 0 (1/2) [0, 1, 2]).Pairwise
      (fun b1 b2 => ∀ i, i ∈ b1 → i ∉ b2) := by
  have hval : ∀ i ∈ [0, 1, 2], ∃ j : ℕ, j < 2 ∧ pyInt (treeC5.data i 0) = (j : ℤ) := by
    intro i hi
    by_cases h1 : i = 1
    · subst h1
      exact ⟨1, by norm_num, by norm_num [pyInt, treeC5, dataC5]⟩
    · exact ⟨0, by norm_num, by norm_num [pyInt, treeC5, dataC5, h1]⟩
  obtain ⟨a, b, c, d⟩ := c45_routing_partition treeC5 0 2 (1/2) [0, 1, 2] hval
  exact ⟨hval, a, b, c, d⟩

/-- The tree state mutated by `learn`: the root reference and the inner
node and leaf id maps. -/
structure TreeState where
  root : Option ℕ
  innernodes : List ℕ
  leaves : List ℕ
deriving DecidableEq, Repr

/-- The input-validation and data-preparation prefix of `JPT.learn` for
list-shaped inputs (`None`/list supplied as `Option`): exactly one of
`data`, `rows`, `columns` may be non-`None`, values pass through Python
truthiness (an empty list is falsy), row-major input is transposed into
`nVars` columns, and absent/empty data is rejected before any induction
work. -/
def prepare (nVars : ℕ) (data rows columns : Option (List (List ℚ))) :
    Except String (List (List ℚ)) :=
  if (if data.isSome then 1 else 0) + (if rows.isSome then 1 else 0)
      + (if columns.isSome then 1 else 0) ≠ 1 then
    Except.error "Only either of the three is allowed."
  else
    let rows2 := match data with
      | some d => if d.isEmpty then rows else some d
      | none => rows
    let columns2 := match rows2 with
      | some rs => if rs.isEmpty then columns
          else some ((List.range nVars).map fun i => rs.map fun (r : List ℚ) => r.getD i 0)
      | none => columns
    match columns2 with
    | some cs => if cs.isEmpty then Except.error "No data given." else Except.ok cs
    | none => Except.error "No data given."

/-- Embedding of `JPT.learn` over an abstract induction step: validation and
preparation run first; only on success does the induction (which drives
the external `Impurity.compute_best_split`, not under `src/`) produce
the new tree state.  A raised exception propagates with the original
state untouched. -/
def learnSt (induct : TreeState → List (List ℚ) → TreeState) (st : TreeState)
    (nVars : ℕ) (data rows columns : Option (List (List ℚ))) :
    TreeState × Except String Unit :=
  match prepare nVars data rows columns with
  | Except.error e => (st, Except.error e)
  | Except.ok cs => (induct st cs, Except.ok ())

/-- C8: when the number of supplied data sources among `(data, rows,
columns)` differs from one, `learn` raises the input-validation error
before any induction work begins, and the tree state (root and node
maps) is unchanged. -/
theorem learn_ambiguous_sources (induct : TreeState → List (List ℚ) → TreeState)
    (st : TreeState) (nVars : ℕ) (data rows columns : Option (List (List ℚ)))
    (h : (if data.isSome then 1 else 0) + (if rows.isSome then 1 else 0)
      + (if columns.isSome then 1 else 0) ≠ 1) :
    learnSt induct st nVars data rows columns =
      (st, Except.error "Only either of the three is allowed.") := by
  unfold learnSt prepare
  rw [if_pos h]

theorem learn_ambiguous_sources_witness :
    learnSt (fun s _ => s) ⟨none, [], []⟩ 2
        (some [[1], [2]]) (some [[1], [2]]) none =
      (⟨none, [], []⟩, Except.error "Only either of the three is allowed.") ∧
    learnSt (fun s _ => s) ⟨none, [], []⟩ 2 none none none =
      (⟨none, [], []⟩, Except.error "Only either of the three is allowed.") :=
  ⟨learn_ambiguous_sources _ _ _ _ _ _ (by decide),
   learn_ambiguous_sources _ _ _ _ _ _ (by decide)⟩

/-- C10: an empty list supplied as the single data source, through any
of the three parameters, is Python-falsy, so `learn` raises the
`No data given.` input-validation error before induction starts and
leaves the tree state unpopulated. -/
theorem learn_empty_source_error (induct : TreeState → List (List ℚ) → TreeState)
    (st : TreeState) (nVars : ℕ) :
    learnSt induct st nVars (some []) none none =
      (st, Except.error "No data given.") ∧
    learnSt induct st nVars none (some []) none =
      (st, Except.error "No data given.") ∧
    learnSt induct st nVars none none (some []) =
      (st, Except.error "No data given.") :=
  ⟨rfl, rfl, rfl⟩

/-- The leaf-to-root walk of `reverse`: follow parent ids until a node
without parent.  The `j < i` guard makes the recursion well-founded; in
a built tree parents are created before their children, so parent ids
are strictly smaller and the guard never fails (hypothesis `hpar` of
`reverse_spec`). -/
def chainFrom (par : ℕ → Option ℕ) (i : ℕ) : List ℕ :=
  match par i with
  | none => [i]
  | some j => if hj : j < i then i :: chainFrom par j else [i]

/-- The walk starts at its start node. -/
theorem chainFrom_head (par : ℕ → Option ℕ) (i : ℕ) :
    (chainFrom par i).head? = some i := by
  unfold chainFrom
  split
  · rfl
  · split <;> rfl

/-- The walk is never empty. -/
theorem chainFrom_ne_nil (par : ℕ → Option ℕ) (i : ℕ) : chainFrom par i ≠ [] := by
  intro hc
  have := chainFrom_head par i
  rw [hc] at this
  cases this

/-- Dropping the head of a cons keeps the last element of a non-empty
tail. -/
theorem getLast?_cons_of_ne_nil {α : Type} (a : α) (l : List α) (h : l ≠ []) :
    (a :: l).getLast? = l.getLast? := by
  cases l with
  | nil => exact absurd rfl h
  | cons b l2 => rfl

/-- On a tree whose parent ids strictly decrease, the walk follows the
parent relation step by step and ends at a root (a node without
parent). -/
theorem chainFrom_chain (par : ℕ → Option ℕ)
    (hpar : ∀ a b, par a = some b → b < a) (i : ℕ) :
    (chainFrom par i).Chain' (fun a b => par a = some b) ∧
    ∃ r, (chainFrom par i).getLast? = some r ∧ par r = none := by
  induction i using Nat.strong_induction_on with
  | _ i ih =>
    unfold chainFrom
    split
    · rename_i hnone
      exact ⟨List.chain'_singleton i, i, rfl, hnone⟩
    · rename_i j hsome
      rw [dif_pos (hpar i j hsome)]
      obtain ⟨hc, r, hr, hrn⟩ := ih j (hpar i j hsome)
      refine ⟨?_, r, ?_, hrn⟩
      · rw [List.chain'_cons']
        refine ⟨?_, hc⟩
        intro h hh
        rw [chainFrom_head par j] at hh
        cases hh
        exact hsome
      · rw [getLast?_cons_of_ne_nil i _ (chainFrom_ne_nil par j)]
        exact hr

/-- Completion of a reverse query: every model variable gets a value;
numeric variables default to the full real line, symbolic ones to the
whole domain, and a scalar symbolic label is wrapped into a singleton
set as the source wraps scalars into lists. -/
def completeQuery (t : JPT) (query : List (Var × QVal)) (v : Var) : QVal :=
  match query.lookup v with
  | some (QVal.sym n) => if v.symbolic then QVal.symSet [n] else QVal.sym n
  | some qv => qv
  | none => if v.numeric then QVal.num Ival.univ else QVal.symSet (List.range v.nValues)

/-- The per-variable confidence map `reverse` computes for one leaf:
for a numeric variable the leaf marginal of the query value, for a
symbolic one the summed marginal over the requested label set. -/
def JPT.leafConfs (t : JPT) (l : Leaf) (q : Var → QVal) : List (Var × ℚ) :=
  t.variables.map fun v =>
    (v, if v.numeric then (l.dist v).p (q v)
        else match q v with
          | QVal.symSet ns => (ns.map fun sv => (l.dist v).p (QVal.sym sv)).sum
          | QVal.sym n => (l.dist v).p (QVal.sym n)
          | QVal.num _ => 0)

/-- The sum of a confidence map's values: the ranking key of
`reverse`. -/
def confSum (cl : List (Var × ℚ)) : ℚ := (cl.map Prod.snd).sum

/-- Embedding of `JPT.reverse`: empty when the query's variables are
disjoint from the model's; otherwise the leaves whose per-variable
confidences all reach the threshold, sorted descending by confidence
sum, each paired with its confidence map and the node-id list obtained
by walking parent links from the leaf upward. -/
def JPT.reverse (t : JPT) (query : List (Var × QVal)) (confidence : ℚ) :
    List (List (Var × ℚ) × List ℕ) :=
  if query.all fun p => !t.variables.contains p.1 then []
  else
    let q := completeQuery t query
    let cands := t.leaves.filter fun l =>
      (t.leafConfs l q).all fun p => confidence ≤ p.2
    let sorted := List.insertionSort
      (fun l1 l2 => confSum (t.leafConfs l2 q) ≤ confSum (t.leafConfs l1 q)) cands
    sorted.map fun c => (t.leafConfs c q, chainFrom t.parent c.idx)

/-- C4 (amended): on a well-formed tree (parent ids strictly decrease),
`reverse(query, confidence)` returns exactly the leaves for which every
per-variable confidence reaches `confidence` (each paired with its
per-variable confidence map and its node path), ordered descending by
the sum of per-variable confidences; each entry's node list is the
LEAF-TO-ROOT path — it starts at the leaf, follows parent links, and
ends at the root — and the result is empty when the query's variables
are disjoint from the model's variables. -/
theorem reverse_spec (t : JPT) (query : List (Var × QVal)) (confidence : ℚ)
    (hpar : ∀ a b, t.parent a = some b → b < a) :
    ((∀ p ∈ query, p.1 ∉ t.variables) → t.reverse query confidence = []) ∧
    ((∃ p ∈ query, p.1 ∈ t.variables) →
      (t.reverse query confidence).Perm
        ((t.leaves.filter fun l =>
            (t.leafConfs l (completeQuery t query)).all fun p => confidence ≤ p.2).map
          fun l => (t.leafConfs l (completeQuery t query), chainFrom t.parent l.idx)) ∧
      (t.reverse query confidence).Pairwise
        (fun e1 e2 => confSum e2.1 ≤ confSum e1.1) ∧
      (∀ e ∈ t.reverse query confidence,
        ∃ l ∈ t.leaves,
          ((t.leafConfs l (completeQuery t query)).all fun p => confidence ≤ p.2) = true ∧
          e.1 = t.leafConfs l (completeQuery t query) ∧
          e.2 = chainFrom t.parent l.idx ∧
          e.2.head? = some l.idx ∧
          e.2.Chain' (fun a b => t.parent a = some b) ∧
          ∃ r, e.2.getLast? = some r ∧ t.parent r = none)) := by
  constructor
  · intro h
    unfold JPT.reverse
    rw [if_pos]
    rw [List.all_eq_true]
    intro p hp
    simp only [Bool.not_eq_true']
    exact Bool.eq_false_iff.mpr fun hc => h p hp (List.mem_of_elem_eq_true hc)
  · intro h
    obtain ⟨p0, hp0, hp0v⟩ := h
    have hcond : ¬((query.all fun p => !t.variables.contains p.1) = true) := by
      rw [List.all_eq_true]
      intro hc
      have := hc p0 hp0
      rw [Bool.not_eq_true'] at this
      rw [Bool.eq_false_iff] at this
      exact this (List.elem_eq_true_of_mem hp0v)
    have hrev : t.reverse query confidence =
        (List.insertionSort
          (fun l1 l2 => confSum (t.leafConfs l2 (completeQuery t query)) ≤
            confSum (t.leafConfs l1 (completeQuery t query)))
          (t.leaves.filter fun l =>
            (t.leafConfs l (completeQuery t query)).all fun p => confidence ≤ p.2)).map
          fun c => (t.leafConfs c (completeQuery t query), chainFrom t.parent c.idx) := by
      unfold JPT.reverse
      rw [if_neg hcond]
    refine ⟨?_, ?_, ?_⟩
    · rw [hrev]
      exact (List.perm_insertionSort _ _).map _
    · rw [hrev]
      haveI hto : IsTotal Leaf (fun l1 l2 =>
          confSum (t.leafConfs l2 (completeQuery t query)) ≤
            confSum (t.leafConfs l1 (completeQuery t query))) :=
        ⟨fun a b => le_total _ _⟩
      haveI htr : IsTrans Leaf (fun l1 l2 =>
          confSum (t.leafConfs l2 (completeQuery t query)) ≤
            confSum (t.leafConfs l1 (completeQuery t query))) :=
        ⟨fun a b c h1 h2 => le_trans h2 h1⟩
      have hsorted := List.sorted_insertionSort
        (fun l1 l2 => confSum (t.leafConfs l2 (completeQuery t query)) ≤
          confSum (t.leafConfs l1 (completeQuery t query)))
        (t.leaves.filter fun l =>
          (t.leafConfs l (completeQuery t query)).all fun p => confidence ≤ p.2)
      exact List.Pairwise.map _ (fun a b hab => hab) hsorted
    · intro e he
      rw [hrev] at he
      rcases List.mem_map.mp he with ⟨c, hc, rfl⟩
      rw [List.mem_insertionSort] at hc
      rw [List.mem_filter] at hc
      obtain ⟨hchain, r, hr, hrn⟩ := chainFrom_chain t.parent hpar c.idx
      exact ⟨c, hc.1, hc.2, rfl, rfl, chainFrom_head t.parent c.idx, hchain, r, hr, hrn⟩

/-- Counterexample input for C4: the query variable. -/
def varXC4 : Var := ⟨0, VKind.symbolic, 2, 0⟩

/-- Counterexample input for C4: parent table of a three-node tree,
root id 0 with children 1 and 2. -/
def parC4 : ℕ → Option ℕ := fun i => if i = 1 ∨ i = 2 then some 0 else none

/-- Counterexample input for C4: first leaf, id 1. -/
def leafC4a : Leaf := ⟨1, 1, [], fun _ => ⟨fun _ => 1⟩⟩

/-- Counterexample input for C4: second leaf, id 2. -/
def leafC4b : Leaf := ⟨2, 1, [], fun _ => ⟨fun _ => 1⟩⟩

/-- Counterexample input for C4: the three-node tree. -/
def treeC4 : JPT := ⟨[varXC4], 1, [leafC4a, leafC4b], 2, parC4, fun _ _ => 0, fun _ => 0⟩

/-- C4 (counterexample): in the three-node tree with root id 0 and
leaves 1 and 2, `reverse` returns the node lists [1, 0] and [2, 0]:
each is ordered leaf-to-root, not root-to-leaf as the claim states (the
root-to-leaf lists would be [0, 1] and [0, 2]). -/
theorem reverse_path_order_counterexample :
    (treeC4.reverse [(varXC4, QVal.symSet [0])] 0).map Prod.snd = [[1, 0], [2, 0]] ∧
    treeC4.parent 0 = none ∧
    ([[1, 0], [2, 0]] : List (List ℕ)) ≠ [[0, 1], [0, 2]] := by
  refine ⟨?_, by simp [treeC4, parC4], by decide⟩
  have hch0 : chainFrom parC4 0 = [0] := by
    rw [chainFrom]
    norm_num [parC4]
  have hch1 : chainFrom parC4 1 = [1, 0] := by
    rw [chainFrom]
    norm_num [parC4, hch0]
  have hch2 : chainFrom parC4 2 = [2, 0] := by
    rw [chainFrom]
    norm_num [parC4, hch0]
  have hq : ¬(([(varXC4, QVal.symSet [0])].all
      fun p => !treeC4.variables.contains p.1) = true) := by
    simp [treeC4, JPT.variables]
  unfold JPT.reverse
  rw [if_neg hq]
  simp only [treeC4, JPT.leafConfs, JPT.variables, completeQuery, confSum]
  norm_num [List.insertionSort, List.orderedInsert, List.filter, leafC4a, leafC4b,
    varXC4, Var.numeric, Var.symbolic, hch1, hch2]

theorem reverse_spec_witness :
    ((∀ p ∈ [(varXC4, QVal.symSet [0])], p.1 ∉ treeC4.variables) →
      treeC4.reverse [(varXC4, QVal.symSet [0])] 0 = []) ∧
    ((∃ p ∈ [(varXC4, QVal.symSet [0])], p.1 ∈ treeC4.variables) →
      (treeC4.reverse [(varXC4, QVal.symSet [0])] 0).Perm
        ((treeC4.leaves.filter fun l =>
            (treeC4.leafConfs l (completeQuery treeC4 [(varXC4, QVal.symSet [0])])).all
              fun p => 0 ≤ p.2).map
          fun l => (treeC4.leafConfs l (completeQuery treeC4 [(varXC4, QVal.symSet [0])]),
            chainFrom treeC4.parent l.idx)) ∧
      (treeC4.reverse [(varXC4, QVal.symSet [0])] 0).Pairwise
        (fun e1 e2 => confSum e2.1 ≤ confSum e1.1) ∧
      (∀ e ∈ treeC4.reverse [(varXC4, QVal.symSet [0])] 0,
        ∃ l ∈ treeC4.leaves,
          ((treeC4.leafConfs l (completeQuery treeC4 [(varXC4, QVal.symSet [0])])).all
            fun p => 0 ≤ p.2) = true ∧
          e.1 = treeC4.leafConfs l (completeQuery treeC4 [(varXC4, QVal.symSet [0])]) ∧
          e.2 = chainFrom treeC4.parent l.idx ∧
          e.2.head? = some l.idx ∧
          e.2.Chain' (fun a b => treeC4.parent a = some b) ∧
          ∃ r, e.2.getLast? = some r ∧ treeC4.parent r = none)) := by
  refine reverse_spec treeC4 [(varXC4, QVal.symSet [0])] 0 ?_
  intro a b h
  simp only [treeC4] at h
  unfold parC4 at h
  by_cases ha : a = 1 ∨ a = 2
  · rw [if_pos ha] at h
    cases h
    omega
  · rw [if_neg ha] at h
    cases h
